import Mathlib

/-!
Verification of the MIDI-decoder core of `midi_converter.py`.

The Python class `MidiFile` is embedded shallowly: its mutable fields become a
`MidiState` record, each method becomes a function from state to state (pure
methods become pure functions), and every loop that is not structurally
recursive is given an explicit fuel argument that is provably ample for the
reachable inputs (each loop iteration strictly advances the cursor, so a fuel
of `bytes.length + 2` can never be exhausted before the loop condition fails).

Numeric conventions:
  * Python ints are `ℕ` where the source value is always non-negative
    (cursor, lengths, byte values, delta times) and `ℤ` where the source
    initialises a field to `-1` (header fields, running status, tempo).
  * Python floats are modelled by exact rationals `ℚ`.  The two float
    computations of the source are `delta_time / division` and
    `value * 0.00024`; the decimal literal `0.00024` is modelled by the exact
    rational `24 / 100000`.  All concrete inputs used in theorems below give
    values that are exactly representable as doubles, so the rational model
    and IEEE semantics agree there.
  * Python `round` is round-half-to-even (`pyRound` below).
  * Out-of-range list indexing (`bytes[i]`) raises `IndexError` in Python; it
    is modelled by `List.getD _ _ 0`.  Every theorem below only exercises
    executions whose indexing stays in bounds, except where the claim itself
    is about out-of-range access (`get_int` uses slicing, which truncates
    rather than raising, and is modelled exactly by `drop`/`take`).

One field, `meta_types`, is ghost instrumentation that does not exist in the
Python program: `read_midi_meta_event` appends the dispatched meta-event type
to it and nothing else touches it.  It lets frame properties ("no Set Tempo
event was encountered during this run") be stated about a whole run.
-/

namespace MidiConverter

/-- Python's built-in `round`: round half to even, on exact rationals. -/
def pyRound (q : ℚ) : ℤ :=
  let f : ℤ := ⌊q⌋
  let frac : ℚ := q - f
  if frac < 1/2 then f
  else if 1/2 < frac then f + 1
  else if f % 2 = 0 then f else f + 1

/-- The fixed playable-key alphabet (`MidiFile.VIRTUAL_PIANO_SCALE`). -/
def VIRTUAL_PIANO_SCALE : List Char :=
  "zZxXcvVbBnNmaAsSdfFgGhHjqQwWerRtTyYuqQwWerRtTyYuqQwWerRtTyYu))".toList

/-- A raw note as stored in `self.notes`: `[delta_time / division, symbol]`.
The symbol is a Python string, modelled as a list of characters. -/
abbrev Note := ℚ × List Char

/-- The mutable fields of a `MidiFile` object (set in `__init__`,
lines 79-99), plus the ghost field `meta_types`. -/
structure MidiState where
  bytes : List ℕ
  header_length : ℤ
  format : ℤ
  tracks : ℤ
  division : ℤ
  division_type : ℤ
  tempo : ℤ
  itr : ℕ
  running_status : ℤ
  running_status_set : Bool
  delta_time : ℕ
  notes : List Note
  meta_types : List ℕ
deriving DecidableEq

/-- The state built by `MidiFile.__init__` just before it calls
`self.read_events()`: the full decode of a buffer is
`read_events (initState bytes default_tempo)`. -/
def initState (bytes : List ℕ) (default_tempo : ℤ) : MidiState :=
  { bytes := bytes
    header_length := -1
    format := -1
    tracks := -1
    division := -1
    division_type := -1
    tempo := default_tempo
    itr := 0
    running_status := -1
    running_status_set := false
    delta_time := 0
    notes := []
    meta_types := [] }

/-- Big-endian value of a byte list, written positionally (used to state what
`get_int`'s Horner-style fold computes). -/
def beNat : List ℕ → ℕ
  | [] => 0
  | b :: rest => b * 256 ^ rest.length + beNat rest

/-- `MidiFile.get_int` (lines 247-252): Horner fold over the Python slice
`self.bytes[self.itr : self.itr + size]` (slicing truncates at the end of the
buffer and never raises), then `self.itr += size` unconditionally. -/
def get_int (size : ℕ) (s : MidiState) : ℕ × MidiState :=
  (((s.bytes.drop s.itr).take size).foldl (fun value b => (value <<< 8) + b) 0,
   { s with itr := s.itr + size })

/-- Loop body of `MidiFile.read_length` (lines 112-129).  Arguments: fuel,
cursor, accumulator; result: (decoded length, new cursor).  Each iteration
consumes one byte; out-of-range bytes read as `0` (high bit clear), so with
`fuel = bytes.length + 1` the fuel can never run out before the final byte. -/
def read_length_go (bytes : List ℕ) : ℕ → ℕ → ℕ → ℕ × ℕ
  | 0, itr, acc => (acc, itr)
  | fuel + 1, itr, acc =>
    let b := bytes.getD itr 0
    if (b &&& 0x80) >>> 7 = 0x1 then
      read_length_go bytes fuel (itr + 1) ((acc <<< 7) + (b &&& 0x7F))
    else
      ((acc <<< 7) + (b &&& 0x7F), itr + 1)

/-- `MidiFile.read_length`: variable-length-quantity decoding. -/
def read_length (s : MidiState) : ℕ × MidiState :=
  let r := read_length_go s.bytes (s.bytes.length + 1) s.itr 0
  (r.1, { s with itr := r.2 })

/-- First `while` of `MidiFile.map_key_to_piano` (lines 221-222):
subtract 12 while the candidate is at or above the alphabet length.  Each pass
subtracts 12, so `m.toNat + 1` units of fuel always reach the exit branch. -/
def fold_down_go : ℕ → ℤ → ℤ
  | 0, m => m
  | fuel + 1, m =>
    if (VIRTUAL_PIANO_SCALE.length : ℤ) ≤ m then fold_down_go fuel (m - 12) else m

/-- Second `while` of `MidiFile.map_key_to_piano` (lines 223-224):
add 12 while negative.  `m.natAbs + 1` units of fuel always suffice. -/
def fold_up_go : ℕ → ℤ → ℤ
  | 0, m => m
  | fuel + 1, m =>
    if m < 0 then fold_up_go fuel (m + 12) else m

/-- `MidiFile.map_key_to_piano` (lines 219-225). -/
def map_key_to_piano (key : ℤ) : ℤ :=
  let m := key - 36
  let m2 := fold_down_go (m.toNat + 1) m
  fold_up_go (m2.natAbs + 1) m2

/-- The list of meta-event types tested on line 160 of the source. -/
def text_event_types : List ℕ :=
  [0x01, 0x02, 0x03, 0x04, 0x05, 0x06, 0x07, 0x08, 0x09, 0x0A, 0x0C]

/-- `MidiFile.read_midi_meta_event` (lines 150-167).  Returns the Python
method's boolean (continue decoding the track) together with the new state.
The ghost field `meta_types` records the dispatched event type.  Note that the
text-event branch of the source is `pass`: it does not move the cursor.  The
tempo branch multiplies by the literal `0.00024`, i.e. `24 / 100000`. -/
def read_midi_meta_event (_delta_t : ℕ) (s0 : MidiState) : Bool × MidiState :=
  let event_type := s0.bytes.getD s0.itr 0
  let s1 : MidiState := { s0 with itr := s0.itr + 1 }
  let lr := read_length s1
  let length := lr.1
  let s2 : MidiState := { lr.2 with meta_types := lr.2.meta_types ++ [event_type] }
  if event_type = 0x2F then
    (false, { s2 with itr := s2.itr + 2 })
  else if event_type ∈ text_event_types then
    (true, s2)
  else if event_type = 0x51 then
    let gr := get_int 3 s2
    (true, { gr.2 with tempo := pyRound ((gr.1 : ℚ) * (24 / 100000 : ℚ)) })
  else
    (true, { s2 with itr := s2.itr + length })

/-- `MidiFile.read_voice_event` (lines 188-217).  The running status stored in
the state is only consulted when `running_status_set` is true, in which case
the program had stored a byte in `0x80..0xF7`; `toNat` is the identity there. -/
def read_voice_event (_delta_t : ℕ) (s0 : MidiState) : MidiState :=
  let b := s0.bytes.getD s0.itr 0
  let et_s : ℕ × MidiState :=
    if b < 0x80 ∧ s0.running_status_set then
      (s0.running_status.toNat, s0)
    else
      let s1 : MidiState :=
        if 0x80 ≤ b ∧ b ≤ 0xF7 then
          { s0 with running_status := (b : ℤ), running_status_set := true }
        else s0
      (b, { s1 with itr := s1.itr + 1 })
  let event_type := et_s.1
  let s := et_s.2
  if event_type >>> 4 = 0x9 then
    let key := s.bytes.getD s.itr 0
    let s2 : MidiState := { s with itr := s.itr + 1 }
    let velocity := s2.bytes.getD s2.itr 0
    let s3 : MidiState := { s2 with itr := s2.itr + 1 }
    let mapped_key := map_key_to_piano (key : ℤ)
    if 0 < velocity then
      { s3 with notes := s3.notes ++
          [(((s3.delta_time : ℚ) / (s3.division : ℚ)),
            [VIRTUAL_PIANO_SCALE.getD mapped_key.toNat ' '])] }
    else s3
  else if event_type >>> 4 ∈ ([0x8, 0x9, 0xA, 0xB, 0xD, 0xE] : List ℕ) then
    { s with itr := s.itr + 2 }
  else
    { s with itr := s.itr + 1 }

/-- Loop of `MidiFile.read_midi_track_event` (lines 169-186), before the final
forced seek.  Each iteration consumes at least one byte (the delta-time read
advances the cursor), so `length + 1` units of fuel always outlast the bound
`itr - start < length`. -/
def track_loop : ℕ → ℕ → ℕ → MidiState → MidiState
  | 0, _, _, s => s
  | fuel + 1, length, start, s =>
    if (length : ℤ) > (s.itr : ℤ) - (start : ℤ) then
      let dr := read_length s
      let s1 : MidiState := { dr.2 with delta_time := dr.2.delta_time + dr.1 }
      let b := s1.bytes.getD s1.itr 0
      if b = 0xFF then
        let mr := read_midi_meta_event dr.1 { s1 with itr := s1.itr + 1 }
        if mr.1 then track_loop fuel length start mr.2 else mr.2
      else if 0xF0 ≤ b ∧ b ≤ 0xF7 then
        track_loop fuel length start
          { s1 with running_status_set := false, running_status := -1 }
      else
        track_loop fuel length start (read_voice_event dr.1 s1)
    else s

/-- `MidiFile.read_midi_track_event`: run the event loop, then force the
cursor to the chunk boundary `start + length` (line 186). -/
def read_midi_track_event (length : ℕ) (s : MidiState) : MidiState :=
  let r := track_loop (length + 1) length s.itr s
  { r with itr := s.itr + length }

/-- `MidiFile.read_mtrk` (lines 131-134). -/
def read_mtrk (s : MidiState) : MidiState :=
  let lr := get_int 4 s
  read_midi_track_event lr.1 lr.2

/-- `MidiFile.read_mthd` (lines 136-143).  Note the source's division-type
extraction `(div & 0x8000) >> 16`. -/
def read_mthd (s : MidiState) : MidiState :=
  let hl := get_int 4 s
  let fm := get_int 2 hl.2
  let tr := get_int 2 fm.2
  let dv := get_int 2 tr.2
  { dv.2 with
    header_length := (hl.1 : ℤ)
    format := (fm.1 : ℤ)
    tracks := (tr.1 : ℤ)
    division_type := (((dv.1 &&& 0x8000) >>> 16 : ℕ) : ℤ)
    division := ((dv.1 &&& 0x7FFF : ℕ) : ℤ) }

/-- The three target patterns of `self.start_sequence` (lines 94-98). -/
def start_sequence : List (List ℕ) := [[0x4D, 0x54, 0x68, 0x64], [0x4D, 0x54, 0x72, 0x6B], [0xFF]]

/-- `MidiFile.check_start_sequence` (lines 103-107) on the counter list. -/
def check_start_sequence (cs : List ℕ) : Bool :=
  (start_sequence.zip cs).any fun p => p.1.length = p.2

/-- One pass of the counter-update `for` loop in `read_events`
(lines 233-237): match the current byte against each pattern at its counter's
index, incrementing on a match and resetting to zero otherwise. -/
def update_counters (b : ℕ) (cs : List ℕ) : List ℕ :=
  (start_sequence.zip cs).map fun p => if b = p.1.getD p.2 0 then p.2 + 1 else 0

/-- Inner `while` of `MidiFile.read_events` (lines 232-245).  Each iteration
advances the cursor by at least one (handlers only move it forward), so fuel
`bytes.length + 2` outlasts the bound `itr + 1 < bytes.length`. -/
def scan_inner : ℕ → List ℕ → MidiState → MidiState × List ℕ
  | 0, cs, s => (s, cs)
  | fuel + 1, cs, s =>
    if s.itr + 1 < s.bytes.length ∧ ¬ check_start_sequence cs then
      let b := s.bytes.getD s.itr 0
      let cs1 := update_counters b cs
      let s1 : MidiState :=
        if s.itr + 1 < s.bytes.length then { s with itr := s.itr + 1 } else s
      let s2 : MidiState :=
        if cs1.getD 0 0 = 4 then read_mthd s1
        else if cs1.getD 1 0 = 4 then read_mtrk s1
        else s1
      scan_inner fuel cs1 s2
    else (s, cs)

/-- Outer `while` of `MidiFile.read_events` (lines 227-245): reset the
counters, then scan.  Every outer iteration runs at least one inner iteration
(a fresh counter list never satisfies `check_start_sequence`), so the cursor
again advances by at least one per iteration. -/
def scan_outer : ℕ → MidiState → MidiState
  | 0, s => s
  | fuel + 1, s =>
    if s.itr + 1 < s.bytes.length then
      let r := scan_inner (s.bytes.length + 2) [0, 0, 0] s
      scan_outer fuel r.1
    else s

/-- `MidiFile.read_events`: the whole chunk-scanning decode pass. -/
def read_events (s : MidiState) : MidiState := scan_outer (s.bytes.length + 2) s

/-!
Note consolidation (`MidiFile.process_notes`, lines 257-269) and export.
-/

/-- The order used by Python's `list.sort()` on the `[time, symbol]` pairs of
`self.notes`: lexicographic, time first, then string comparison on the symbol
(characters by code point, which is the order on `List Char`).  Python's sort
is stable, but `noteLe` is an antisymmetric total order, so every sorted
permutation of a given list is the same list and stability is immaterial. -/
def noteLe (a b : Note) : Prop := a.1 < b.1 ∨ (a.1 = b.1 ∧ a.2 ≤ b.2)

instance : DecidableRel noteLe := fun a b => by
  unfold noteLe; infer_instance

/-- `self.notes.sort()` (line 258). -/
def sortNotes (l : List Note) : List Note := l.insertionSort noteLe

/-- The `while i < len(self.notes)` merge loop (lines 260-266).  Fuel is the
list length; each recursive call is on a strictly shorter list, so the fuel is
never exhausted.  When two adjacent entries have equal time the source runs
`notes[i][1] += notes[i-1][1]; notes.pop(i-1)`: the earlier entry's symbols
are appended AFTER the later entry's. -/
def merge_go : ℕ → List Note → List Note
  | 0, l => l
  | _, [] => []
  | _, [x] => [x]
  | fuel + 1, x :: y :: rest =>
    if x.1 = y.1 then merge_go fuel ((y.1, y.2 ++ x.2) :: rest)
    else x :: merge_go fuel (y :: rest)

/-- The merge loop, with its fuel instantiated. -/
def mergeNotes (l : List Note) : List Note := merge_go l.length l

/-- Python `"".join(sorted(set(s), key=s.index))` (line 269): the distinct
characters of `s` in order of first occurrence.  Fuel is the list length; the
filtered tail is strictly shorter, so the fuel is never exhausted. -/
def dedup_go : ℕ → List Char → List Char
  | 0, l => l
  | _, [] => []
  | fuel + 1, c :: cs => c :: dedup_go fuel (cs.filter fun d => d ≠ c)

/-- First-occurrence deduplication with its fuel instantiated. -/
def dedupFirst (l : List Char) : List Char := dedup_go l.length l

/-- Line 269 applied to one note: deduplicate the chord's symbol string. -/
def dedup_note (n : Note) : Note := (n.1, dedupFirst n.2)

/-- The pure part of `MidiFile.process_notes` (lines 257-269): sort, merge
equal-time neighbours, deduplicate each chord's symbols. -/
def process_notes_list (l : List Note) : List Note :=
  (mergeNotes (sortNotes l)).map dedup_note

/-- The chord text used by `generate_piano_sheet` (line 287). -/
def noteRepr (sym : List Char) : List Char :=
  if 1 < sym.length then ('[' :: sym) ++ [']'] else sym

/-- Python's `f"{x:>7}"`: right-justify to width 7. -/
def rjust7 (s : List Char) : List Char := List.replicate (7 - s.length) ' ' ++ s

/-- The writer loop of `generate_piano_sheet` (lines 283-291), producing the
text that is written to `sheet.txt`; `count` is `note_count`. -/
def sheet_go : ℕ → List Note → List Char
  | _, [] => []
  | count, n :: rest =>
    rjust7 (noteRepr n.2) ++ [' '] ++
      (if (count + 1) % 8 = 0 then ['\n'] else []) ++ sheet_go (count + 1) rest

/-- `MidiFile.generate_piano_sheet` (lines 281-291).  Its first statement is
`offset = self.notes[0][0]`, which raises `IndexError` when the note list is
empty (the variable is never used afterwards); the exception is modelled by
`none`. -/
def generate_piano_sheet (notes : List Note) : Option (List Char) :=
  match notes with
  | [] => none
  | _ :: _ => some (sheet_go 0 notes)

/-- `MidiFile.process_notes` as a whole (lines 257-279): consolidate, build
the `song_data` record `{tempo, notes}` (written to `song.json`), then run
`generate_piano_sheet`.  A `none` result models the run raising an exception
instead of completing. -/
def process_notes (s : MidiState) : Option ((ℤ × List Note) × List Char) :=
  let notes := process_notes_list s.notes
  match generate_piano_sheet notes with
  | none => none
  | some sheet => some ((s.tempo, notes), sheet)

/-!
Specification-side definitions.  These are written from the words of the
specification (and of the claims), to be compared with the source-derived
definitions above.
-/

/-- Comparison of notes by time alone. -/
def timeLe (a b : Note) : Prop := a.1 ≤ b.1

/-- Strict comparison of notes by time alone. -/
def timeLt (a b : Note) : Prop := a.1 < b.1

/-- Insertion that places a note after all earlier notes of less-or-equal
time: the building block of a stable sort keyed on time only, as the claim
describes ("stable, ties broken by original emission order"). -/
def insert_after_le (x : Note) : List Note → List Note
  | [] => [x]
  | y :: ys => if y.1 ≤ x.1 then y :: insert_after_le x ys else x :: y :: ys

/-- Stable sort by time with ties kept in original (emission) order. -/
def stable_sort_by_time (l : List Note) : List Note :=
  l.foldl (fun acc x => insert_after_le x acc) []

/-- Merge of adjacent equal-time notes as the claim states it: the symbols of
the group are concatenated "in emission order" (earlier note first). -/
def claim_merge_go : ℕ → List Note → List Note
  | 0, l => l
  | _, [] => []
  | _, [x] => [x]
  | fuel + 1, x :: y :: rest =>
    if x.1 = y.1 then claim_merge_go fuel ((x.1, x.2 ++ y.2) :: rest)
    else x :: claim_merge_go fuel (y :: rest)

/-- The consolidation exactly as claim C3 words it: stable sort by time,
merge equal-time groups concatenating symbols in emission order, deduplicate
keeping first occurrences. -/
def claim_consolidate (l : List Note) : List Note :=
  (claim_merge_go l.length (stable_sort_by_time l)).map dedup_note

/-- Maximal runs of adjacent equal-time notes (used to state what the merge
loop of the source actually produces). -/
def runs_by_time : List Note → List (List Note)
  | [] => []
  | x :: xs =>
    (x :: xs.takeWhile fun t => decide (t.1 = x.1)) ::
      runs_by_time (xs.dropWhile fun t => decide (t.1 = x.1))
termination_by l => l.length
decreasing_by
  simp only [List.length_cons]
  exact Nat.lt_succ_of_le (List.dropWhile_sublist _).length_le

/-- The chord the source's merge loop builds from one equal-time run: the
run's time, with the symbols concatenated in reverse run order. -/
def chord_of_run : List Note → Note
  | [] => (0, [])
  | x :: xs => (x.1, ((x :: xs).reverse.map Prod.snd).flatten)

/-- The amended description of the source's consolidation: sort by the pair
(time, symbol), turn each maximal equal-time run into one chord whose symbols
are concatenated in reverse run order, then deduplicate keeping first
occurrences. -/
def consolidate_amended (l : List Note) : List Note :=
  ((runs_by_time (sortNotes l)).map chord_of_run).map dedup_note

/-!
Concrete input buffers used by counterexamples and witnesses.
-/

/-- A MIDI buffer with one header (division 1) and two track chunks; the first
track advances the delta-time accumulator by 7 before its note-on (key 60),
the second track opens with a delta of 0 and a note-on (key 62). -/
def c5bytes : List ℕ :=
  [0x4D, 0x54, 0x68, 0x64, 0x00, 0x00, 0x00, 0x06, 0x00, 0x00, 0x00, 0x02, 0x00, 0x01,
   0x4D, 0x54, 0x72, 0x6B, 0x00, 0x00, 0x00, 0x04, 0x07, 0x90, 0x3C, 0x40,
   0x4D, 0x54, 0x72, 0x6B, 0x00, 0x00, 0x00, 0x04, 0x00, 0x90, 0x3E, 0x40]

/-- A well-formed MIDI buffer (header, division 0x60, one empty track chunk)
whose decode succeeds and produces no notes. -/
def c7bytes : List ℕ :=
  [0x4D, 0x54, 0x68, 0x64, 0x00, 0x00, 0x00, 0x06, 0x00, 0x00, 0x00, 0x01, 0x00, 0x60,
   0x4D, 0x54, 0x72, 0x6B, 0x00, 0x00, 0x00, 0x00]

/-!
Theorems.
-/

/-- C1: the claim states that a Set Tempo meta-event stores
`round(60000000 / microseconds_per_quarter)`.  The source (line 164) instead
stores `round(microseconds_per_quarter * 0.00024)`; the two agree at the
common payload 500000 but nowhere else.  At the payload `0x0F 0x42 0x40`
(1000000 µs per quarter, i.e. 60 bpm) the code stores 240 while the claimed
formula gives 60. -/
theorem C1_set_tempo_code_bug :
    (read_midi_meta_event 0 (initState [0x51, 0x03, 0x0F, 0x42, 0x40] 120)).2.tempo = 240
    ∧ pyRound ((60000000 : ℚ) / 1000000) = 60
    ∧ (read_midi_meta_event 0 (initState [0x51, 0x03, 0x07, 0xA1, 0x20] 120)).2.tempo = 120 := by
  refine ⟨by with_unfolding_all decide, by with_unfolding_all decide, by with_unfolding_all decide⟩

/-- C2: the claim states that a text-class meta-event with declared length `n`
advances the cursor `n` bytes past the length field.  The source's text branch
(lines 160-162) is `pass`: for the event `0x03` with declared length 2 the
cursor stays at offset 2 (the end of the length field) instead of 4, so the
two payload bytes are left to be re-parsed as events. -/
theorem C2_text_event_code_bug :
    (read_midi_meta_event 0 (initState [0x03, 0x02, 0x41, 0x42] 120)).2.itr = 2
    ∧ (read_midi_meta_event 0 (initState [0x03, 0x02, 0x41, 0x42] 120)).1 = true
    ∧ (2 : ℕ) ≠ 2 + 2 := by
  refine ⟨by with_unfolding_all decide, by with_unfolding_all decide, by with_unfolding_all decide⟩

/-- C6: the claim states that the decoded `division_type` is the top bit of
the 16-bit division value (1 when set).  The source (line 142) computes
`(div & 0x8000) >> 16`, which shifts the masked 16-bit value out entirely:
for the division value `0x8000` (top bit set, so the claim expects 1) the
stored `division_type` is 0. -/
theorem C6_division_type_code_bug :
    (read_mthd (initState [0, 0, 0, 6, 0, 1, 0, 1, 0x80, 0x00] 120)).division_type = 0
    ∧ ((0x8000 : ℕ) >>> 15 = 1)
    ∧ (read_mthd (initState [0, 0, 0, 6, 0, 1, 0, 1, 0x80, 0x00] 120)).division_type ≠ 1 := by
  refine ⟨by with_unfolding_all decide, by with_unfolding_all decide, by with_unfolding_all decide⟩

/-- C7: the claim states that a successful decode always processes and exports
into a non-null Song, including with zero notes.  Decoding `c7bytes` (header
plus one empty track) succeeds with an empty note list, but
`generate_piano_sheet` begins with `offset = self.notes[0][0]` (line 282, the
variable is never used), which raises `IndexError` on the empty list, so
`process_notes` aborts instead of yielding a Song. -/
theorem C7_empty_song_code_bug :
    (read_events (initState c7bytes 120)).notes = []
    ∧ process_notes (read_events (initState c7bytes 120)) = none := by
  refine ⟨by with_unfolding_all decide, by with_unfolding_all decide⟩

/-- The Horner-style fold of `get_int` computes the positional big-endian
value of the bytes it is given. -/
lemma foldl_horner (l : List ℕ) (a : ℕ) :
    l.foldl (fun value b => (value <<< 8) + b) a = a * 256 ^ l.length + beNat l := by
  induction l generalizing a with
  | nil => simp [beNat]
  | cons b t ih =>
    simp only [List.foldl_cons, beNat, List.length_cons]
    rw [ih, Nat.shiftLeft_eq]
    have h8 : (2 : ℕ) ^ 8 = 256 := by norm_num
    rw [h8]
    ring

/-- C4 (counterexample): reading 2 bytes from a 1-byte buffer does not fail
with `OutOfBounds` — `get_int` returns the big-endian value of the single
available byte and advances the position to 2, beyond the buffer length 1,
violating the claimed `0 <= position <= len(bytes)` invariant. -/
theorem C4_out_of_bounds_counterexample :
    (get_int 2 (initState [5] 120)).1 = 5
    ∧ (get_int 2 (initState [5] 120)).2.itr = 2
    ∧ (initState [5] 120).bytes.length = 1 := by
  refine ⟨by decide, by decide, by decide⟩

/-- C4 (amended): `get_int n` never fails.  It returns the big-endian value
of the available bytes of the slice `bytes[itr : itr + n]` (which Python
truncates at the end of the buffer) and always advances the position by
exactly `n`, possibly beyond the buffer; when `n` bytes do remain, the slice
has length exactly `n` and the new position stays within bounds, as the
claim's "otherwise" part states. -/
theorem C4_get_int_amended (s : MidiState) (n : ℕ) :
    (get_int n s).1 = beNat ((s.bytes.drop s.itr).take n)
    ∧ (get_int n s).2.itr = s.itr + n
    ∧ (s.itr + n ≤ s.bytes.length →
        ((s.bytes.drop s.itr).take n).length = n
        ∧ (get_int n s).2.itr ≤ s.bytes.length) := by
  refine ⟨?_, rfl, fun h => ⟨?_, ?_⟩⟩
  · simpa using foldl_horner ((s.bytes.drop s.itr).take n) 0
  · simp only [List.length_take, List.length_drop]
    omega
  · simpa using h

/-- C4 (witness): the amended theorem applied to the 3-byte buffer
`[1, 2, 3]` at position 0 with `n = 2`. -/
theorem C4_get_int_witness :
    ((((initState [1, 2, 3] 120).bytes.drop (initState [1, 2, 3] 120).itr).take 2).length = 2
    ∧ (get_int 2 (initState [1, 2, 3] 120)).2.itr ≤ (initState [1, 2, 3] 120).bytes.length) :=
  (C4_get_int_amended (initState [1, 2, 3] 120) 2).2.2 (by decide)

set_option maxRecDepth 4000 in
/-- C8: for every 7-bit key value, `map_key_to_piano` lands in
`[0, length VIRTUAL_PIANO_SCALE)`, so indexing the alphabet with the result
is always in bounds. -/
theorem C8_pitch_folding_in_bounds :
    ∀ k : ℕ, k < 128 →
      0 ≤ map_key_to_piano (k : ℤ)
      ∧ (map_key_to_piano (k : ℤ)).toNat < VIRTUAL_PIANO_SCALE.length := by
  decide

/-- C8 (witness): the bound instantiated at key 60 (middle C). -/
theorem C8_pitch_folding_witness :
    0 ≤ map_key_to_piano ((60 : ℕ) : ℤ)
    ∧ (map_key_to_piano ((60 : ℕ) : ℤ)).toNat < VIRTUAL_PIANO_SCALE.length :=
  C8_pitch_folding_in_bounds 60 (by decide)

/-- Meta-event handling never changes the delta-time accumulator. -/
lemma read_midi_meta_event_delta_time (d : ℕ) (s : MidiState) :
    (read_midi_meta_event d s).2.delta_time = s.delta_time := by
  unfold read_midi_meta_event
  dsimp only
  split_ifs <;> rfl

/-- Voice-event handling never changes the delta-time accumulator. -/
lemma read_voice_event_delta_time (d : ℕ) (s : MidiState) :
    (read_voice_event d s).delta_time = s.delta_time := by
  unfold read_voice_event
  dsimp only
  split_ifs <;> rfl

/-- The track-event loop only ever adds the decoded delta-times to the
accumulator: it never resets it. -/
lemma track_loop_delta_time_mono (fuel : ℕ) :
    ∀ (len start : ℕ) (s : MidiState),
      s.delta_time ≤ (track_loop fuel len start s).delta_time := by
  induction fuel with
  | zero => intro len start s; exact le_rfl
  | succ f ih =>
    intro len start s
    rw [track_loop]
    dsimp only
    split_ifs with h1 h2 h3 h4
    · refine le_trans ?_ (ih len start _)
      rw [read_midi_meta_event_delta_time]
      exact Nat.le_add_right _ _
    · rw [read_midi_meta_event_delta_time]
      exact Nat.le_add_right _ _
    · refine le_trans ?_ (ih len start _)
      exact Nat.le_add_right _ _
    · refine le_trans ?_ (ih len start _)
      rw [read_voice_event_delta_time]
      exact Nat.le_add_right _ _
    · exact le_rfl

/-- C5 (counterexample): decoding `c5bytes`, a file with two track chunks,
does not give the second chunk a fresh decoder state.  The second chunk opens
with delta-time 0 and a note-on, yet its note is emitted at time 7 — the
cumulative delta carried over from the first chunk — where the claim's
fresh-per-track state would put it at time 0. -/
theorem C5_fresh_state_counterexample :
    (read_events (initState c5bytes 120)).notes = [((7 : ℚ), ['q']), ((7 : ℚ), ['w'])]
    ∧ (read_events (initState c5bytes 120)).delta_time = 7
    ∧ ((7 : ℚ) ≠ 0) := by
  refine ⟨by with_unfolding_all decide, by with_unfolding_all decide, by with_unfolding_all decide⟩

/-- C5 (amended): the decoder state is per-file, not per-track.  Entering a
track chunk (`read_mtrk`) reads the 4-byte length — which moves only the
cursor — and passes the delta-time accumulator and running status through to
the event loop unreset; the loop itself only ever grows the accumulator. -/
theorem C5_track_state_carries_over (s : MidiState) :
    read_mtrk s = read_midi_track_event (get_int 4 s).1 (get_int 4 s).2
    ∧ (get_int 4 s).2.delta_time = s.delta_time
    ∧ (get_int 4 s).2.running_status = s.running_status
    ∧ (get_int 4 s).2.running_status_set = s.running_status_set
    ∧ s.delta_time ≤ (read_mtrk s).delta_time := by
  refine ⟨rfl, rfl, rfl, rfl, ?_⟩
  have h := track_loop_delta_time_mono ((get_int 4 s).1 + 1) (get_int 4 s).1
    (get_int 4 s).2.itr (get_int 4 s).2
  simpa [read_mtrk, read_midi_track_event, get_int] using h

/-- The merge loop of `process_notes` collapses every maximal run of adjacent
equal-time notes into a single chord whose symbols are concatenated in
reverse run order (the source appends the earlier entry's symbols after the
later entry's). -/
lemma merge_go_runs : ∀ (fuel : ℕ) (l : List Note), l.length ≤ fuel →
    merge_go fuel l = (runs_by_time l).map chord_of_run := by
  intro fuel
  induction fuel with
  | zero =>
    intro l hl
    have : l = [] := List.length_eq_zero.mp (Nat.le_zero.mp hl)
    subst this
    simp [merge_go, runs_by_time]
  | succ f ih =>
    intro l hl
    match l with
    | [] => simp [merge_go, runs_by_time]
    | [x] => simp [merge_go, runs_by_time, chord_of_run]
    | x :: y :: rest =>
      simp only [List.length_cons] at hl
      by_cases h : x.1 = y.1
      · rw [merge_go, if_pos h, ih ((y.1, y.2 ++ x.2) :: rest) (by simpa using by omega)]
        rw [runs_by_time, runs_by_time]
        have hy : (decide (y.1 = x.1)) = true := by simp [h.symm]
        simp only [List.takeWhile_cons, List.dropWhile_cons, hy, if_true]
        have hpq : (fun t : Note => decide (t.1 = x.1)) = fun t : Note => decide (t.1 = y.1) := by
          funext t
          rw [h]
        rw [hpq]
        simp [chord_of_run, List.reverse_cons, List.map_append, List.flatten_append,
          List.append_assoc, h]
      · rw [merge_go, if_neg h]
        have hy : (decide (y.1 = x.1)) = false := by
          simp only [decide_eq_false_iff_not]
          exact fun hc => h hc.symm
        have hruns : runs_by_time (x :: y :: rest) = [x] :: runs_by_time (y :: rest) := by
          rw [runs_by_time]
          simp only [List.takeWhile_cons, List.dropWhile_cons, hy]
          simp
        rw [hruns, List.map_cons, ih (y :: rest) (by simp only [List.length_cons]; omega)]
        simp [chord_of_run]

/-- C3 (counterexample): on the emission-ordered raw list
`[(1, "a"), (1, "b")]` the claim predicts the single chord `"ab"` (symbols in
emission order), but `process_notes` produces `"ba"`: the merge loop appends
the earlier entry's symbols after the later entry's. -/
theorem C3_consolidation_counterexample :
    process_notes_list [((1 : ℚ), ['a']), ((1 : ℚ), ['b'])] = [((1 : ℚ), ['b', 'a'])]
    ∧ claim_consolidate [((1 : ℚ), ['a']), ((1 : ℚ), ['b'])] = [((1 : ℚ), ['a', 'b'])]
    ∧ (['b', 'a'] : List Char) ≠ ['a', 'b'] := by
  refine ⟨by with_unfolding_all decide, by with_unfolding_all decide, by decide⟩

/-- C3 (amended): the consolidation sorts by the pair (time, symbol) — the
comparison Python's `list.sort` applies to the `[time, symbol]` pairs — and
each maximal equal-time run becomes one chord whose symbol string
concatenates the run's symbols in reverse run order, with duplicates then
removed preserving first occurrence. -/
theorem C3_consolidation_amended (l : List Note) :
    process_notes_list l = consolidate_amended l := by
  unfold process_notes_list consolidate_amended mergeNotes
  rw [merge_go_runs (sortNotes l).length (sortNotes l) le_rfl]

instance : IsTotal Note noteLe :=
  ⟨fun a b => by
    rcases lt_trichotomy a.1 b.1 with h | h | h
    · exact Or.inl (Or.inl h)
    · rcases le_total a.2 b.2 with h2 | h2
      · exact Or.inl (Or.inr ⟨h, h2⟩)
      · exact Or.inr (Or.inr ⟨h.symm, h2⟩)
    · exact Or.inr (Or.inl h)⟩

instance : IsTrans Note noteLe :=
  ⟨fun a b c hab hbc => by
    rcases hab with h1 | ⟨h1, h1s⟩
    · rcases hbc with h2 | ⟨h2, _⟩
      · exact Or.inl (h1.trans h2)
      · exact Or.inl (h2 ▸ h1)
    · rcases hbc with h2 | ⟨h2, h2s⟩
      · exact Or.inl (h1 ▸ h2)
      · exact Or.inr ⟨h1.trans h2, h1s.trans h2s⟩⟩

/-- The sorted note list is in particular weakly ordered by time. -/
lemma sortNotes_pairwise_timeLe (l : List Note) : (sortNotes l).Pairwise timeLe := by
  have hs := List.sorted_insertionSort noteLe l
  exact hs.imp fun h => by
    rcases h with h | ⟨h, _⟩
    · exact le_of_lt h
    · exact le_of_eq h

/-- Every time value in the merge loop's output is a time value of its
input. -/
lemma merge_go_times_subset : ∀ (fuel : ℕ) (l : List Note), l.length ≤ fuel →
    ∀ e ∈ merge_go fuel l, ∃ e2 ∈ l, e.1 = e2.1 := by
  intro fuel
  induction fuel with
  | zero =>
    intro l hl
    have : l = [] := List.length_eq_zero.mp (Nat.le_zero.mp hl)
    subst this
    simp [merge_go]
  | succ f ih =>
    intro l hl
    match l with
    | [] => simp [merge_go]
    | [x] =>
      intro e he
      simp only [merge_go, List.mem_singleton] at he
      exact ⟨x, by simp, by rw [he]⟩
    | x :: y :: rest =>
      simp only [List.length_cons] at hl
      intro e he
      rw [merge_go] at he
      by_cases h : x.1 = y.1
      · rw [if_pos h] at he
        rcases ih _ (by simp only [List.length_cons]; omega) e he with ⟨e2, he2, heq⟩
        rcases List.mem_cons.mp he2 with h2 | h2
        · exact ⟨y, by simp, by rw [heq, h2]⟩
        · exact ⟨e2, by simp [h2], heq⟩
      · rw [if_neg h] at he
        rcases List.mem_cons.mp he with h2 | h2
        · exact ⟨x, by simp, by rw [h2]⟩
        · rcases ih _ (by simp only [List.length_cons]; omega) e h2 with ⟨e2, he2, heq⟩
          exact ⟨e2, List.mem_cons_of_mem x he2, heq⟩

/-- On a list weakly sorted by time, the merge loop produces strictly
increasing times. -/
lemma merge_go_pairwise_lt : ∀ (fuel : ℕ) (l : List Note), l.length ≤ fuel →
    l.Pairwise timeLe → (merge_go fuel l).Pairwise timeLt := by
  intro fuel
  induction fuel with
  | zero =>
    intro l hl _
    have : l = [] := List.length_eq_zero.mp (Nat.le_zero.mp hl)
    subst this
    simp [merge_go]
  | succ f ih =>
    intro l hl hp
    match l with
    | [] => simp [merge_go]
    | [x] => simp [merge_go, timeLt]
    | x :: y :: rest =>
      simp only [List.length_cons] at hl
      rw [merge_go]
      rcases List.pairwise_cons.mp hp with ⟨hx, hp2⟩
      rcases List.pairwise_cons.mp hp2 with ⟨hy, hp3⟩
      by_cases h : x.1 = y.1
      · rw [if_pos h]
        refine ih _ (by simp only [List.length_cons]; omega) ?_
        exact List.pairwise_cons.mpr ⟨fun e he => hy e he, hp3⟩
      · rw [if_neg h]
        have hxy : x.1 < y.1 :=
          lt_of_le_of_ne (hx y (by simp)) h
        refine List.pairwise_cons.mpr ⟨?_, ih _ (by simp only [List.length_cons]; omega) hp2⟩
        intro e he
        rcases merge_go_times_subset f (y :: rest) (by simp only [List.length_cons]; omega) e he
          with ⟨e2, he2, heq⟩
        rcases List.mem_cons.mp he2 with h2 | h2
        · show x.1 < e.1
          rw [heq, h2]
          exact hxy
        · show x.1 < e.1
          rw [heq]
          exact lt_of_lt_of_le hxy (hy e2 h2)

/-- On a list with strictly increasing times the merge loop changes
nothing. -/
lemma merge_go_eq_self : ∀ (fuel : ℕ) (l : List Note), l.length ≤ fuel →
    l.Pairwise timeLt → merge_go fuel l = l := by
  intro fuel
  induction fuel with
  | zero =>
    intro l hl _
    have : l = [] := List.length_eq_zero.mp (Nat.le_zero.mp hl)
    subst this
    simp [merge_go]
  | succ f ih =>
    intro l hl hp
    match l with
    | [] => simp [merge_go]
    | [x] => simp [merge_go]
    | x :: y :: rest =>
      simp only [List.length_cons] at hl
      rcases List.pairwise_cons.mp hp with ⟨hx, hp2⟩
      have h : x.1 ≠ y.1 := ne_of_lt (hx y (by simp))
      rw [merge_go, if_neg h, ih _ (by simp only [List.length_cons]; omega) hp2]

/-- The deduplication loop is insensitive to the exact fuel, provided the
fuel covers the list length. -/
lemma dedup_go_congr : ∀ (f1 f2 : ℕ) (l : List Char), l.length ≤ f1 → l.length ≤ f2 →
    dedup_go f1 l = dedup_go f2 l := by
  intro f1
  induction f1 with
  | zero =>
    intro f2 l hl _
    have : l = [] := List.length_eq_zero.mp (Nat.le_zero.mp hl)
    subst this
    cases f2 <;> simp [dedup_go]
  | succ f ih =>
    intro f2 l h1 h2
    match l with
    | [] => cases f2 <;> simp [dedup_go]
    | c :: cs =>
      simp only [List.length_cons] at h1 h2
      match f2 with
      | g + 1 =>
        simp only [dedup_go]
        have hlen : (cs.filter fun d => d ≠ c).length ≤ cs.length :=
          List.length_filter_le _ _
        rw [ih g _ (by omega) (by omega)]

/-- Members of the deduplication's output are members of its input. -/
lemma mem_dedup_go : ∀ (fuel : ℕ) (l : List Char) (x : Char), x ∈ dedup_go fuel l → x ∈ l := by
  intro fuel
  induction fuel with
  | zero => intro l x hx; simp only [dedup_go] at hx; exact hx
  | succ f ih =>
    intro l x hx
    match l with
    | [] => simp only [dedup_go] at hx; exact hx
    | c :: cs =>
      simp only [dedup_go, List.mem_cons] at hx
      rcases hx with h | h
      · simp [h]
      · have := ih _ _ h
        exact List.mem_cons_of_mem c (List.mem_of_mem_filter this)

/-- The deduplication's output has no duplicates. -/
lemma nodup_dedup_go : ∀ (fuel : ℕ) (l : List Char), l.length ≤ fuel →
    (dedup_go fuel l).Nodup := by
  intro fuel
  induction fuel with
  | zero =>
    intro l hl
    have : l = [] := List.length_eq_zero.mp (Nat.le_zero.mp hl)
    subst this
    simp [dedup_go]
  | succ f ih =>
    intro l hl
    match l with
    | [] => simp [dedup_go]
    | c :: cs =>
      simp only [List.length_cons] at hl
      simp only [dedup_go, List.nodup_cons]
      constructor
      · intro hc
        have hmem := mem_dedup_go _ _ _ hc
        have := List.of_mem_filter hmem
        simp at this
      · exact ih _ (le_trans (List.length_filter_le _ _) (by omega))

/-- On a duplicate-free list the deduplication loop changes nothing. -/
lemma dedup_go_eq_self : ∀ (fuel : ℕ) (l : List Char), l.length ≤ fuel → l.Nodup →
    dedup_go fuel l = l := by
  intro fuel
  induction fuel with
  | zero =>
    intro l hl _
    have : l = [] := List.length_eq_zero.mp (Nat.le_zero.mp hl)
    subst this
    simp [dedup_go]
  | succ f ih =>
    intro l hl hn
    match l with
    | [] => simp [dedup_go]
    | c :: cs =>
      simp only [List.length_cons] at hl
      rcases List.nodup_cons.mp hn with ⟨hc, hn2⟩
      have hfil : (cs.filter fun d => d ≠ c) = cs := by
        rw [List.filter_eq_self]
        intro a ha
        simp only [ne_eq, decide_eq_true_eq]
        exact fun he => hc (he ▸ ha)
      simp only [dedup_go, hfil]
      rw [ih _ (by omega) hn2]

/-- First-occurrence deduplication is idempotent. -/
lemma dedupFirst_idem (l : List Char) : dedupFirst (dedupFirst l) = dedupFirst l :=
  dedup_go_eq_self _ _ le_rfl (nodup_dedup_go _ _ le_rfl)

/-- Per-chord deduplication is idempotent. -/
lemma dedup_note_idem (n : Note) : dedup_note (dedup_note n) = dedup_note n := by
  unfold dedup_note
  simp [dedupFirst_idem]

/-- C9: running the consolidation of `process_notes` a second time on its own
output changes nothing: the first pass leaves the notes strictly sorted by
time with duplicate-free chords, on which the sort, the merge loop and the
per-chord deduplication are all the identity. -/
theorem C9_consolidation_idempotent (l : List Note) :
    process_notes_list (process_notes_list l) = process_notes_list l := by
  have hm_lt : (mergeNotes (sortNotes l)).Pairwise timeLt :=
    merge_go_pairwise_lt _ _ le_rfl (sortNotes_pairwise_timeLe l)
  have hout_lt : ((mergeNotes (sortNotes l)).map dedup_note).Pairwise timeLt := by
    rw [List.pairwise_map]
    exact hm_lt.imp fun h => h
  have hsorted : ((mergeNotes (sortNotes l)).map dedup_note).Sorted noteLe :=
    hout_lt.imp fun h => Or.inl h
  have hsort_id : sortNotes ((mergeNotes (sortNotes l)).map dedup_note) =
      (mergeNotes (sortNotes l)).map dedup_note := hsorted.insertionSort_eq
  have hmerge_id : mergeNotes ((mergeNotes (sortNotes l)).map dedup_note) =
      (mergeNotes (sortNotes l)).map dedup_note := merge_go_eq_self _ _ le_rfl hout_lt
  unfold process_notes_list
  rw [hsort_id, hmerge_id, List.map_map]
  congr 1
  funext n
  exact dedup_note_idem n

/-- Meta-event handling appends exactly the dispatched event type to the
ghost trace. -/
lemma read_midi_meta_event_meta_types (d : ℕ) (s : MidiState) :
    (read_midi_meta_event d s).2.meta_types = s.meta_types ++ [s.bytes.getD s.itr 0] := by
  unfold read_midi_meta_event
  dsimp only
  split_ifs <;> rfl

/-- Meta-event handling leaves the tempo unchanged unless the dispatched
event type is 0x51 (Set Tempo). -/
lemma read_midi_meta_event_tempo (d : ℕ) (s : MidiState)
    (h : s.bytes.getD s.itr 0 ≠ 0x51) :
    (read_midi_meta_event d s).2.tempo = s.tempo := by
  unfold read_midi_meta_event
  dsimp only
  split_ifs <;> rfl

/-- Voice-event handling never changes the tempo. -/
lemma read_voice_event_tempo (d : ℕ) (s : MidiState) :
    (read_voice_event d s).tempo = s.tempo := by
  unfold read_voice_event
  dsimp only
  split_ifs <;> rfl

/-- Voice-event handling never changes the ghost trace. -/
lemma read_voice_event_meta_types (d : ℕ) (s : MidiState) :
    (read_voice_event d s).meta_types = s.meta_types := by
  unfold read_voice_event
  dsimp only
  split_ifs <;> rfl

/-- The track-event loop only ever appends to the ghost trace. -/
lemma track_loop_meta_mono (fuel : ℕ) :
    ∀ (len start : ℕ) (s : MidiState),
      ∃ t, (track_loop fuel len start s).meta_types = s.meta_types ++ t := by
  induction fuel with
  | zero => intro len start s; exact ⟨[], (List.append_nil _).symm⟩
  | succ f ih =>
    intro len start s
    rw [track_loop]
    dsimp only
    split_ifs with h1 h2 h3 h4
    · obtain ⟨t, ht⟩ := ih len start _
      exact ⟨_, by rw [ht, read_midi_meta_event_meta_types, List.append_assoc]; rfl⟩
    · exact ⟨_, read_midi_meta_event_meta_types _ _⟩
    · exact ih len start _
    · obtain ⟨t, ht⟩ := ih len start _
      refine ⟨t, ?_⟩
      rw [ht, read_voice_event_meta_types]
      rfl
    · exact ⟨[], (List.append_nil _).symm⟩

/-- If no Set Tempo event was dispatched during the track-event loop, the
tempo is unchanged by it. -/
lemma track_loop_tempo (fuel : ℕ) :
    ∀ (len start : ℕ) (s : MidiState),
      (0x51 : ℕ) ∉ (track_loop fuel len start s).meta_types →
      (track_loop fuel len start s).tempo = s.tempo := by
  induction fuel with
  | zero => intro len start s _; rfl
  | succ f ih =>
    intro len start s h51
    rw [track_loop] at h51 ⊢
    dsimp only at h51 ⊢
    split_ifs at h51 ⊢ with h1 h2 h3 h4
    · rw [ih len start _ h51]
      obtain ⟨t, ht⟩ := track_loop_meta_mono f len start _
      rw [ht, read_midi_meta_event_meta_types] at h51
      simp only [List.append_assoc, List.mem_append, List.mem_singleton, not_or] at h51
      rw [read_midi_meta_event_tempo _ _ (fun he => h51.2.1 he.symm)]
      rfl
    · rw [read_midi_meta_event_meta_types] at h51
      simp only [List.mem_append, List.mem_singleton, not_or] at h51
      rw [read_midi_meta_event_tempo _ _ (fun he => h51.2 he.symm)]
      rfl
    · exact ih len start _ h51
    · rw [ih len start _ h51, read_voice_event_tempo]
      rfl
    · rfl

/-- Decoding a track chunk only ever appends to the ghost trace. -/
lemma read_mtrk_meta_mono (s : MidiState) :
    ∃ t, (read_mtrk s).meta_types = s.meta_types ++ t := by
  unfold read_mtrk read_midi_track_event
  dsimp only
  obtain ⟨t, ht⟩ := track_loop_meta_mono ((get_int 4 s).1 + 1) (get_int 4 s).1
    (get_int 4 s).2.itr (get_int 4 s).2
  exact ⟨t, ht⟩

/-- If no Set Tempo event was dispatched while decoding a track chunk, the
tempo is unchanged by it. -/
lemma read_mtrk_tempo (s : MidiState) (h : (0x51 : ℕ) ∉ (read_mtrk s).meta_types) :
    (read_mtrk s).tempo = s.tempo := by
  unfold read_mtrk read_midi_track_event at h ⊢
  dsimp only at h ⊢
  rw [track_loop_tempo _ _ _ _ h]
  rfl

/-- Header decoding changes neither the tempo nor the ghost trace. -/
lemma read_mthd_tempo (s : MidiState) : (read_mthd s).tempo = s.tempo := rfl

/-- Header decoding leaves the ghost trace unchanged. -/
lemma read_mthd_meta_types (s : MidiState) : (read_mthd s).meta_types = s.meta_types := rfl

/-- The cursor bump in the scanner leaves the ghost trace unchanged. -/
lemma bump_meta_types (s : MidiState) :
    (if s.itr + 1 < s.bytes.length then { s with itr := s.itr + 1 } else s).meta_types
      = s.meta_types := by
  split_ifs <;> rfl

/-- The cursor bump in the scanner leaves the tempo unchanged. -/
lemma bump_tempo (s : MidiState) :
    (if s.itr + 1 < s.bytes.length then { s with itr := s.itr + 1 } else s).tempo
      = s.tempo := by
  split_ifs <;> rfl

/-- The handler dispatch of the scanner only ever appends to the ghost
trace. -/
lemma scan_step_meta_mono (cs1 : List ℕ) (s1 : MidiState) :
    ∃ t, (if cs1.getD 0 0 = 4 then read_mthd s1
          else if cs1.getD 1 0 = 4 then read_mtrk s1
          else s1).meta_types = s1.meta_types ++ t := by
  split_ifs with h1 h2
  · exact ⟨[], by rw [read_mthd_meta_types, List.append_nil]⟩
  · exact read_mtrk_meta_mono s1
  · exact ⟨[], (List.append_nil _).symm⟩

/-- If no Set Tempo event was dispatched by the handler the scanner fires,
the tempo is unchanged by it. -/
lemma scan_step_tempo (cs1 : List ℕ) (s1 : MidiState)
    (h : (0x51 : ℕ) ∉ (if cs1.getD 0 0 = 4 then read_mthd s1
          else if cs1.getD 1 0 = 4 then read_mtrk s1
          else s1).meta_types) :
    (if cs1.getD 0 0 = 4 then read_mthd s1
     else if cs1.getD 1 0 = 4 then read_mtrk s1
     else s1).tempo = s1.tempo := by
  split_ifs at h ⊢ with h1 h2
  · rfl
  · exact read_mtrk_tempo s1 h
  · rfl

/-- The inner scanning loop only ever appends to the ghost trace. -/
lemma scan_inner_meta_mono (fuel : ℕ) :
    ∀ (cs : List ℕ) (s : MidiState),
      ∃ t, (scan_inner fuel cs s).1.meta_types = s.meta_types ++ t := by
  induction fuel with
  | zero => intro cs s; exact ⟨[], (List.append_nil _).symm⟩
  | succ f ih =>
    intro cs s
    by_cases hc : s.itr + 1 < s.bytes.length ∧ ¬ check_start_sequence cs
    · rw [scan_inner, if_pos hc]
      dsimp only
      obtain ⟨t, ht⟩ := ih (update_counters (s.bytes.getD s.itr 0) cs) _
      obtain ⟨t2, ht2⟩ := scan_step_meta_mono (update_counters (s.bytes.getD s.itr 0) cs)
        (if s.itr + 1 < s.bytes.length then { s with itr := s.itr + 1 } else s)
      refine ⟨t2 ++ t, ?_⟩
      rw [ht, ht2, bump_meta_types, List.append_assoc]
    · rw [scan_inner, if_neg hc]
      exact ⟨[], (List.append_nil _).symm⟩

/-- If no Set Tempo event was dispatched during the inner scanning loop, the
tempo is unchanged by it. -/
lemma scan_inner_tempo (fuel : ℕ) :
    ∀ (cs : List ℕ) (s : MidiState),
      (0x51 : ℕ) ∉ (scan_inner fuel cs s).1.meta_types →
      (scan_inner fuel cs s).1.tempo = s.tempo := by
  induction fuel with
  | zero => intro cs s _; rfl
  | succ f ih =>
    intro cs s h51
    by_cases hc : s.itr + 1 < s.bytes.length ∧ ¬ check_start_sequence cs
    · rw [scan_inner, if_pos hc] at h51 ⊢
      dsimp only at h51 ⊢
      rw [ih (update_counters (s.bytes.getD s.itr 0) cs) _ h51]
      obtain ⟨t, ht⟩ := scan_inner_meta_mono f (update_counters (s.bytes.getD s.itr 0) cs) _
      rw [ht] at h51
      simp only [List.mem_append, not_or] at h51
      rw [scan_step_tempo _ _ h51.1, bump_tempo]
    · rw [scan_inner, if_neg hc]

/-- The outer scanning loop only ever appends to the ghost trace. -/
lemma scan_outer_meta_mono (fuel : ℕ) :
    ∀ s : MidiState, ∃ t, (scan_outer fuel s).meta_types = s.meta_types ++ t := by
  induction fuel with
  | zero => intro s; exact ⟨[], (List.append_nil _).symm⟩
  | succ f ih =>
    intro s
    by_cases hc : s.itr + 1 < s.bytes.length
    · rw [scan_outer, if_pos hc]
      dsimp only
      obtain ⟨t, ht⟩ := ih (scan_inner (s.bytes.length + 2) [0, 0, 0] s).1
      obtain ⟨t2, ht2⟩ := scan_inner_meta_mono (s.bytes.length + 2) [0, 0, 0] s
      refine ⟨t2 ++ t, ?_⟩
      rw [ht, ht2, List.append_assoc]
    · rw [scan_outer, if_neg hc]
      exact ⟨[], (List.append_nil _).symm⟩

/-- If no Set Tempo event was dispatched during the outer scanning loop, the
tempo is unchanged by it. -/
lemma scan_outer_tempo (fuel : ℕ) :
    ∀ s : MidiState,
      (0x51 : ℕ) ∉ (scan_outer fuel s).meta_types →
      (scan_outer fuel s).tempo = s.tempo := by
  induction fuel with
  | zero => intro s _; rfl
  | succ f ih =>
    intro s h51
    by_cases hc : s.itr + 1 < s.bytes.length
    · rw [scan_outer, if_pos hc] at h51 ⊢
      dsimp only at h51 ⊢
      rw [ih _ h51]
      obtain ⟨t, ht⟩ := scan_outer_meta_mono f (scan_inner (s.bytes.length + 2) [0, 0, 0] s).1
      rw [ht] at h51
      simp only [List.mem_append, not_or] at h51
      exact scan_inner_tempo _ _ _ h51.1
    · rw [scan_outer, if_neg hc]

/-- C10: when the decode of a buffer dispatches no Set Tempo (0x51)
meta-event, the tempo after the whole decode pass — and hence the tempo field
of the exported song record, whenever the export completes — is exactly the
`default_tempo` supplied at construction; no other decoding step touches the
tempo field. -/
theorem C10_default_tempo_frame (bytes : List ℕ) (dt : ℤ)
    (h : (0x51 : ℕ) ∉ (read_events (initState bytes dt)).meta_types) :
    (read_events (initState bytes dt)).tempo = dt
    ∧ ∀ song sheet, process_notes (read_events (initState bytes dt)) = some (song, sheet) →
        song.1 = dt := by
  have h1 : (read_events (initState bytes dt)).tempo = dt :=
    scan_outer_tempo _ _ h
  refine ⟨h1, ?_⟩
  intro song sheet hps
  unfold process_notes at hps
  dsimp only at hps
  rcases hgen : generate_piano_sheet
      (process_notes_list (read_events (initState bytes dt)).notes) with _ | sheet2
  · rw [hgen] at hps
    simp at hps
  · rw [hgen] at hps
    dsimp only at hps
    simp only [Option.some.injEq, Prod.mk.injEq] at hps
    rw [← hps.1]
    exact h1

/-- C10 (witness): the two-track buffer `c5bytes` contains no meta-events at
all, so decoding it with default tempo 97 exports tempo 97. -/
theorem C10_default_tempo_witness :
    ((0x51 : ℕ) ∉ (read_events (initState c5bytes 97)).meta_types)
    ∧ (read_events (initState c5bytes 97)).tempo = 97 :=
  ⟨by with_unfolding_all decide, (C10_default_tempo_frame c5bytes 97 (by with_unfolding_all decide)).1⟩

end MidiConverter
